import Mathlib

/-!
# Verification of the YouTube subtitle downloader core

Shallow embedding of `src/app.py`: the transcript cleaner `clean_subtitles`
(WebVTT header stripping, regex-based markup/timestamp/positioning removal,
whitespace collapse, trim) and the request orchestrator
`download_audio_and_subtitles` / `download` with its workspace lifecycle
(`cleanup_files`).

Strings are modelled as `List Char`.  The Python regex substitutions
(`re.sub`) are modelled faithfully as left-to-right, leftmost-match,
non-overlapping scans.  Digits are modelled as ASCII `'0'..'9'` (the only
digits the program's data ever contains).
-/

/-- Python line-break characters recognised by `str.splitlines`. -/
def lbList : List Char :=
  ['\n', '\r', '\x0b', '\x0c', '\x1c', '\x1d', '\x1e', '\x85', '\u2028', '\u2029']

/-- Python whitespace characters (the class `\s` for `str` patterns, and the
default strip set of `str.strip`). -/
def wsList : List Char :=
  [' ', '\t', '\n', '\r', '\x0b', '\x0c', '\x1c', '\x1d', '\x1e', '\x1f',
   '\x85', '\xa0', '\u1680', '\u2000', '\u2001', '\u2002', '\u2003', '\u2004',
   '\u2005', '\u2006', '\u2007', '\u2008', '\u2009', '\u200a', '\u2028',
   '\u2029', '\u202f', '\u205f', '\u3000']

def isLB (c : Char) : Bool := decide (c ∈ lbList)

def isWS (c : Char) : Bool := decide (c ∈ wsList)

/-- ASCII digit (the `\d` occurrences in the program's patterns). -/
def isDig (c : Char) : Bool := '0' ≤ c && c ≤ '9'

/-- `swL p s`: the char list `p` is an initial segment of `s`
(Python `str.startswith`). -/
def swL : List Char → List Char → Bool
  | [], _ => true
  | _ :: _, [] => false
  | p :: ps, c :: cs => p = c && swL ps cs

/-! ## `str.splitlines` and joining -/

/-- Worker for `pySplitlines`; `cur` is the reversed current line. -/
def slAux : List Char → List Char → List (List Char)
  | cur, [] => [cur.reverse]
  | cur, '\r' :: '\n' :: r => cur.reverse :: (if r.isEmpty then [] else slAux [] r)
  | cur, c :: r =>
    if isLB c then cur.reverse :: (if r.isEmpty then [] else slAux [] r)
    else slAux (c :: cur) r

/-- Python `str.splitlines`: split at line boundaries (`\r\n` counts once),
drop terminators, no trailing empty line for a trailing terminator. -/
def pySplitlines (cs : List Char) : List (List Char) :=
  if cs.isEmpty then [] else slAux [] cs

/-- `'\n'.join(lines)` from the source. -/
def joinNL : List (List Char) → List Char
  | [] => []
  | [l] => l
  | l :: ls => l ++ '\n' :: joinNL ls

/-! ## Header stripping (lines 18–25 of `app.py`) -/

/-- One conditional pop: drop the first line if it satisfies `p`
(`if lines and lines[0].startswith(...): lines.pop(0)`). -/
def popIf (p : List Char → Bool) : List (List Char) → List (List Char)
  | [] => []
  | l :: ls => if p l then ls else l :: ls

/-- The three sequential conditional pops for `WEBVTT`, `Kind:`, `Language:`. -/
def dropHeader (ls : List (List Char)) : List (List Char) :=
  popIf (swL "Language:".data) (popIf (swL "Kind:".data) (popIf (swL "WEBVTT".data) ls))

/-! ## The three `re.sub` passes

Each pass is a leftmost-match scan: a `split` function decides whether a
match begins at the current position and, if so, returns the rest of the
input after the match; on failure the scan advances one character, exactly
as `re.sub` does. -/

/-- Match of `<[^>]+>` at the head: a `'<'`, at least one non-`'>'`
character, then the first `'>'`. Returns the remainder after the match. -/
def tagSplit : List Char → Option (List Char)
  | [] => none
  | c :: r =>
    if c = '<' then
      if (r.takeWhile (fun d => d ≠ '>')).isEmpty then none
      else if (r.drop (r.takeWhile (fun d => d ≠ '>')).length).head? = some '>' then
        some (r.drop (r.takeWhile (fun d => d ≠ '>')).length).tail
      else none
    else none

/-- Character classes used by the fixed-width timestamp pattern. -/
inductive CC where
  | dig : CC
  | lit : Char → CC
deriving DecidableEq

def ccMatch : CC → Char → Bool
  | .dig, c => isDig c
  | .lit c₀, c => c = c₀

/-- `\d{2}:\d{2}:\d{2}\.\d{3}`. -/
def stampPat : List CC :=
  [.dig, .dig, .lit ':', .dig, .dig, .lit ':', .dig, .dig, .lit '.', .dig, .dig, .dig]

/-- `\d{2}:\d{2}:\d{2}\.\d{3} --> \d{2}:\d{2}:\d{2}\.\d{3}` (29 characters). -/
def tsPat : List CC :=
  stampPat ++ [.lit ' ', .lit '-', .lit '-', .lit '>', .lit ' '] ++ stampPat

/-- Match a class pattern at the head of the input, returning the remainder. -/
def matchPre : List CC → List Char → Option (List Char)
  | [], cs => some cs
  | _ :: _, [] => none
  | p :: ps, c :: cs => if ccMatch p c then matchPre ps cs else none

def tsSplit (cs : List Char) : Option (List Char) := matchPre tsPat cs

def alignLit : List Char := "align:start position:".data

/-- Match of `align:start position:[^%]+%` at the head. -/
def alignSplit (cs : List Char) : Option (List Char) :=
  if swL alignLit cs then
    if ((cs.drop alignLit.length).takeWhile (fun d => d ≠ '%')).isEmpty then none
    else if ((cs.drop alignLit.length).drop
        ((cs.drop alignLit.length).takeWhile (fun d => d ≠ '%')).length).head? = some '%' then
      some ((cs.drop alignLit.length).drop
        ((cs.drop alignLit.length).takeWhile (fun d => d ≠ '%')).length).tail
    else none
  else none

/-- Fuelled leftmost-match deletion scan (`re.sub(pat, '', s)`). -/
def scanDelF (split : List Char → Option (List Char)) : Nat → List Char → List Char
  | 0, cs => cs
  | _ + 1, [] => []
  | f + 1, c :: r =>
    match split (c :: r) with
    | some rest => scanDelF split f rest
    | none => c :: scanDelF split f r

/-- Leftmost-match deletion scan with enough fuel. -/
def scanDel (split : List Char → Option (List Char)) (cs : List Char) : List Char :=
  scanDelF split cs.length cs

/-- `re.sub(r'<[^>]+>', '', s)`. -/
def rmTag (cs : List Char) : List Char := scanDel tagSplit cs

/-- `re.sub(r'\d{2}:\d{2}:\d{2}\.\d{3} --> \d{2}:\d{2}:\d{2}\.\d{3}', '', s)`. -/
def rmTs (cs : List Char) : List Char := scanDel tsSplit cs

/-- `re.sub(r'align:start position:[^%]+%', '', s)`. -/
def rmAlign (cs : List Char) : List Char := scanDel alignSplit cs

/-! ## Whitespace collapse and strip -/

/-- Worker for `collapseWS`: `prev` records whether the previous input
character was whitespace (so its run already emitted its single space). -/
def cgo : Bool → List Char → List Char
  | _, [] => []
  | prev, c :: r =>
    if isWS c then (if prev then cgo true r else ' ' :: cgo true r)
    else c :: cgo false r

/-- `re.sub(r'\s+', ' ', s)`: every maximal whitespace run becomes one space. -/
def collapseWS (cs : List Char) : List Char := cgo false cs

/-- Drop leading whitespace. -/
def dlw : List Char → List Char
  | [] => []
  | c :: r => if isWS c then dlw r else c :: r

/-- Drop trailing whitespace. -/
def dtw : List Char → List Char
  | [] => []
  | c :: r => if (dtw r).isEmpty then (if isWS c then [] else [c]) else c :: dtw r

/-- Python `str.strip()`. -/
def pyStrip (cs : List Char) : List Char := dlw (dtw cs)

/-! ## Derived notions used by the specification statements -/

/-- Decidable "no match of the given matcher starts at any position". -/
def noMatchB (split : List Char → Option (List Char)) (cs : List Char) : Bool :=
  cs.tails.all (fun t => (split t).isNone)

/-- The effect of `'\n'.join(s.splitlines())`: every line terminator
(`\r\n` counting once) becomes `'\n'`, and a terminator ending the string
is deleted. -/
def nlNorm : List Char → List Char
  | [] => []
  | '\r' :: '\n' :: r => if r.isEmpty then [] else '\n' :: nlNorm r
  | c :: r =>
    if isLB c then (if r.isEmpty then [] else '\n' :: nlNorm r)
    else c :: nlNorm r

/-- Like `nlNorm` but inside a larger string: no end-of-string deletion. -/
def nlNormInner : List Char → List Char
  | [] => []
  | '\r' :: '\n' :: r => '\n' :: nlNormInner r
  | c :: r => (if isLB c then '\n' else c) :: nlNormInner r

/-- Every whitespace character is a plain space. -/
def allWsSp (cs : List Char) : Bool := cs.all (fun c => !isWS c || c = ' ')

/-- No two adjacent whitespace characters. -/
def noAdjWs : List Char → Bool
  | [] => true
  | [_] => true
  | a :: b :: r => !(isWS a && isWS b) && noAdjWs (b :: r)

/-- The first character, if any, is not whitespace. -/
def headNotWs : List Char → Bool
  | [] => true
  | c :: _ => !isWS c

/-- The last character, if any, is not whitespace. -/
def lastNotWs : List Char → Bool
  | [] => true
  | [c] => !isWS c
  | _ :: r => lastNotWs r

/-- The first line carries none of the three header markers, so the header
stripping stage is the identity. -/
def headerFreeB (s : List Char) : Bool :=
  match pySplitlines s with
  | [] => true
  | l :: _ => !(swL "WEBVTT".data l || swL "Kind:".data l || swL "Language:".data l)

/-- `ccExcludes p x`: no character matching class `p` equals `x`. -/
def ccExcludes : CC → Char → Bool
  | .dig, x => !isDig x
  | .lit c₀, x => x != c₀

/-- The strings made only of angle-bracket tags, cue-timing ranges,
`align:start position:NN%` artifacts and whitespace, interleaved
arbitrarily (the exhaustiveness domain of the spec's markup claim). -/
inductive Interleaved : List Char → Prop where
  | nil : Interleaved []
  | ws {c : Char} {r : List Char} : isWS c = true → Interleaved r → Interleaved (c :: r)
  | tag {x : List Char} {r : List Char} : x ≠ [] → (∀ c ∈ x, c ≠ '>') →
      Interleaved r → Interleaved ('<' :: x ++ '>' :: r)
  | ts {w : List Char} {r : List Char} : matchPre tsPat w = some [] →
      Interleaved r → Interleaved (w ++ r)
  | align {d : List Char} {r : List Char} : d ≠ [] → (∀ c ∈ d, isDig c = true) →
      Interleaved r → Interleaved (alignLit ++ d ++ '%' :: r)

/-- `Interleaved` strings after tag removal: cue ranges, positioning
artifacts and whitespace. -/
inductive Interleaved2 : List Char → Prop where
  | nil : Interleaved2 []
  | ws {c : Char} {r : List Char} : isWS c = true → Interleaved2 r → Interleaved2 (c :: r)
  | ts {w : List Char} {r : List Char} : matchPre tsPat w = some [] →
      Interleaved2 r → Interleaved2 (w ++ r)
  | align {d : List Char} {r : List Char} : d ≠ [] → (∀ c ∈ d, isDig c = true) →
      Interleaved2 r → Interleaved2 (alignLit ++ d ++ '%' :: r)

/-- `Interleaved` strings after tag and cue-range removal: positioning
artifacts and whitespace. -/
inductive Interleaved3 : List Char → Prop where
  | nil : Interleaved3 []
  | ws {c : Char} {r : List Char} : isWS c = true → Interleaved3 r → Interleaved3 (c :: r)
  | align {d : List Char} {r : List Char} : d ≠ [] → (∀ c ∈ d, isDig c = true) →
      Interleaved3 r → Interleaved3 (alignLit ++ d ++ '%' :: r)

/-- A concrete interleaving of a tag, a cue range, a positioning artifact
and whitespace, used as the exhaustiveness witness. -/
def c4ex : List Char :=
  '<' :: "c".data ++ '>' :: ' ' ::
    ("00:00:01.000 --> 00:00:02.000".data ++ ' ' ::
      (alignLit ++ "12".data ++ '%' :: [' ']))

/-! ## The cleaner (`clean_subtitles`, lines 13–37 of `app.py`) -/

def cleanList (cs : List Char) : List Char :=
  pyStrip (collapseWS (rmAlign (rmTs (rmTag (joinNL (dropHeader (pySplitlines cs)))))))

def clean_subtitles (s : String) : String := String.mk (cleanList s.data)

/-! ## The orchestrator (`download_audio_and_subtitles`, `download`)

The extraction client (`yt_dlp`) and the filesystem are external
collaborators; they are modelled by an environment recording the outcome of
the extraction call, whether the caption artifact `file.en.vtt` was written,
its content, and whether `shutil.rmtree` raises.  Python exceptions are
modelled with `Except`; `fastapi.HTTPException` is a subclass of
`Exception`, so the catch-all `except Exception` clause also catches it. -/

/-- Outcome of `ydl.extract_info(...)`. -/
inductive ExtractOutcome where
  | success : ExtractOutcome
  | downloadError : ExtractOutcome
  | otherError : String → ExtractOutcome
deriving DecidableEq

/-- One call's external environment. -/
structure Env where
  extract : ExtractOutcome
  subtitleFileExists : Bool
  subtitleContent : String
  rmtreeRaises : Bool
deriving DecidableEq

/-- Python exceptions that reach the orchestrator layer. -/
inductive PyExc where
  | httpExc : Nat → String → PyExc
  | downloadErr : String → PyExc
  | osError : String → PyExc
deriving DecidableEq

/-- `str(e)` rendering used by the `f"An error occurred: {e}"` detail. -/
def excStr : PyExc → String
  | .httpExc status detail => toString status ++ ": " ++ detail
  | .downloadErr m => m
  | .osError m => m

/-- The `try:` body of `download_audio_and_subtitles` (lines 68–90):
extract, locate the artifact, read and clean it, or raise. -/
def tryBody (env : Env) : Except PyExc String :=
  match env.extract with
  | .downloadError => .error (.downloadErr "ERROR: unable to download video data")
  | .otherError m => .error (.osError m)
  | .success =>
    if env.subtitleFileExists then .ok (clean_subtitles env.subtitleContent)
    else .error (.httpExc 404 "No subtitles found for this video.")

/-- `download_audio_and_subtitles` (lines 46–95): the try body followed by
`except yt_dlp.DownloadError` (→ 400) and the catch-all `except Exception`
(→ 500), which also catches the `HTTPException(404)` raised inside the try. -/
def download_audio_and_subtitles (env : Env) : Except PyExc String :=
  match tryBody env with
  | .ok v => .ok v
  | .error (.downloadErr _) => .error (.httpExc 400 "Failed to download video or subtitles.")
  | .error e => .error (.httpExc 500 ("An error occurred: " ++ excStr e))

/-- `cleanup_files` (lines 39–44): remove the workspace directory if it
exists; `shutil.rmtree` may raise.  Returns (outcome, directory exists
afterwards). -/
def cleanup_files (env : Env) (dirExists : Bool) : Except PyExc Unit × Bool :=
  if dirExists then
    if env.rmtreeRaises then (.error (.osError "rmtree failed"), true)
    else (.ok (), false)
  else (.ok (), false)

/-- The `/download/` endpoint (lines 102–119).  `fs0` is whether the
workspace directory exists before the call; `os.makedirs` inside
`download_audio_and_subtitles` ensures it exists during the call.  The
`except HTTPException as e: raise e` clause re-raises unchanged; the
`finally:` block runs `cleanup_files`, and per Python semantics an exception
raised in `finally` replaces any pending result or exception.  Returns
(surfaced result, directory exists after the call). -/
def download (env : Env) (_fs0 : Bool) : Except PyExc String × Bool :=
  let dirDuring := true
  let r := download_audio_and_subtitles env
  match cleanup_files env dirDuring with
  | (.error ce, dirAfter) => (.error ce, dirAfter)
  | (.ok _, dirAfter) => (r, dirAfter)

/-! ## Claim C3 — concrete scenario A -/

/-- C3: `clean` on the concrete WebVTT document of scenario A yields exactly
`"Hello world"`. -/
theorem c3_scenario_a :
    clean_subtitles
      "WEBVTT\nKind: captions\nLanguage: en\n\n00:00:01.000 --> 00:00:02.000 align:start position:0%\nHello <c>world</c>\n"
      = "Hello world" := by decide

/-! ## Claim C1 — success-but-no-artifact classification

The claim says this case fails with HTTP 404.  The source raises
`HTTPException(404, "No subtitles found for this video.")` at line 90, but
that raise sits inside the `try:` block, and `fastapi.HTTPException`
derives from `Exception`, so the catch-all `except Exception as e` at line
94 catches it and re-raises `HTTPException(500, f"An error occurred: {e}")`.
The surfaced classification is therefore 500, contradicting both the claim
and the code's own intent at line 90. -/

/-- C1 (code bug): when extraction reports success but no caption file
exists, the operation surfaces HTTP 500, not the intended 404. -/
theorem c1_no_artifact_surfaces_500 :
    download_audio_and_subtitles ⟨.success, false, "", false⟩
      = .error (.httpExc 500 "An error occurred: 404: No subtitles found for this video.")
    ∧ (download ⟨.success, false, "", false⟩ false).1
      = .error (.httpExc 500 "An error occurred: 404: No subtitles found for this video.") := by
  constructor <;> rfl

/-! ## Claim C2 — workspace cleanup invariant -/

/-- C2: for every call outcome (success and each failure classification,
i.e. whenever the removal primitive itself does not fail), the workspace
directory does not exist after `download` returns. -/
theorem c2_workspace_removed_after_call (env : Env) (fs0 : Bool)
    (h : env.rmtreeRaises = false) : (download env fs0).2 = false := by
  unfold download cleanup_files
  rw [h]
  rcases download_audio_and_subtitles env with v | e <;> rfl

theorem c2_workspace_removed_after_call_witness :
    (⟨.success, true, "WEBVTT", false⟩ : Env).rmtreeRaises = false
    ∧ (download ⟨.success, true, "WEBVTT", false⟩ true).2 = false :=
  ⟨rfl, c2_workspace_removed_after_call ⟨.success, true, "WEBVTT", false⟩ true rfl⟩

/-! ## Claim C5 — cleanup failure must not mask an earlier failure

The claim says an earlier, more specific failure takes precedence over a
cleanup failure.  In the source the cleanup runs in a bare `finally:`
block; if `shutil.rmtree` raises there, Python *replaces* the in-flight
exception with the cleanup exception, so the original classification is
lost. -/

/-- C5 counterexample: extraction fails (HTTP 400 pending) and cleanup then
fails; the surfaced error is the cleanup failure, not the pending 400. -/
theorem c5_cleanup_masks_pending_failure :
    (download ⟨.downloadError, false, "", true⟩ false).1 = .error (.osError "rmtree failed")
    ∧ (download ⟨.downloadError, false, "", true⟩ false).1
      ≠ .error (.httpExc 400 "Failed to download video or subtitles.") := by
  refine ⟨rfl, ?_⟩
  intro h
  rw [show (download ⟨.downloadError, false, "", true⟩ false).1
        = .error (.osError "rmtree failed") from rfl] at h
  injection h with h2
  exact PyExc.noConfusion h2

/-- C5 amended: when workspace cleanup fails, the cleanup failure replaces
whatever result or classified failure was pending; the original failure is
never the one surfaced. -/
theorem c5_cleanup_failure_replaces_pending (env : Env) (fs0 : Bool)
    (h : env.rmtreeRaises = true) :
    (download env fs0).1 = .error (.osError "rmtree failed") := by
  unfold download cleanup_files
  rw [h]
  rfl

theorem c5_cleanup_failure_replaces_pending_witness :
    (⟨.success, true, "WEBVTT", true⟩ : Env).rmtreeRaises = true
    ∧ (download ⟨.success, true, "WEBVTT", true⟩ false).1 = .error (.osError "rmtree failed") :=
  ⟨rfl, c5_cleanup_failure_replaces_pending ⟨.success, true, "WEBVTT", true⟩ false rfl⟩

/-! ## Claim C8 — extraction failure classification and cleanup -/

/-- C8: when the extraction client reports a download error, the call fails
with HTTP 400 ("bad request / extraction failed") and the workspace
directory is removed afterwards. -/
theorem c8_download_error_400_and_removed (env : Env) (fs0 : Bool)
    (hx : env.extract = .downloadError) (hc : env.rmtreeRaises = false) :
    (download env fs0).1 = .error (.httpExc 400 "Failed to download video or subtitles.")
    ∧ (download env fs0).2 = false := by
  unfold download cleanup_files download_audio_and_subtitles tryBody
  rw [hx, hc]
  exact ⟨rfl, rfl⟩

theorem c8_download_error_400_and_removed_witness :
    (⟨.downloadError, false, "", false⟩ : Env).extract = .downloadError
    ∧ (⟨.downloadError, false, "", false⟩ : Env).rmtreeRaises = false
    ∧ (download ⟨.downloadError, false, "", false⟩ true).1
        = .error (.httpExc 400 "Failed to download video or subtitles.")
    ∧ (download ⟨.downloadError, false, "", false⟩ true).2 = false := by
  refine ⟨rfl, rfl, ?_, ?_⟩
  · exact (c8_download_error_400_and_removed ⟨.downloadError, false, "", false⟩ true rfl rfl).1
  · exact (c8_download_error_400_and_removed ⟨.downloadError, false, "", false⟩ true rfl rfl).2

/-! ## Claim C7 — header order-independence -/

/-- C7: on an input whose first line carries the `WEBVTT` signature and
whose second line carries `Language:` (no `Kind:` line), exactly those two
lines are dropped and the body lines are untouched: each check is
conditional and looks at the current first line after prior drops. -/
theorem c7_header_order_independent (l0 l1 : List Char) (rest : List (List Char))
    (h0 : swL "WEBVTT".data l0 = true) (h1 : swL "Language:".data l1 = true) :
    dropHeader (l0 :: l1 :: rest) = rest := by
  have hk : swL "Kind:".data l1 = false := by
    cases l1 with
    | nil => simp [swL] at h1
    | cons c cs =>
      have : c = 'L' := by
        have := h1
        simp only [swL, String.data] at this
        rcases Bool.and_eq_true .. |>.mp this with ⟨hc, _⟩
        exact (decide_eq_true_eq.mp hc).symm
      subst this
      simp [swL, String.data]
  unfold dropHeader popIf
  simp [h0, hk, h1]

/-! ## Machinery: basic list lemmas -/

theorem drop_append_len (s t : List Char) : (s ++ t).drop s.length = t := by
  induction s with
  | nil => rfl
  | cons c s ih => simpa using ih

theorem takeWhile_append_drop (p : Char → Bool) (s : List Char) :
    s.takeWhile p ++ s.drop (s.takeWhile p).length = s := by
  induction s with
  | nil => rfl
  | cons c r ih =>
    by_cases h : p c = true <;> simp [List.takeWhile_cons, h, ih]

theorem takeWhile_all_append {p : Char → Bool} {s : List Char}
    (h : ∀ c ∈ s, p c = true) {c0 : Char} (hc0 : p c0 = false) (t : List Char) :
    (s ++ c0 :: t).takeWhile p = s := by
  induction s with
  | nil => simp [List.takeWhile_cons, hc0]
  | cons c r ih =>
    have hc : p c = true := h c (List.mem_cons_self c r)
    simp only [List.cons_append, List.takeWhile_cons, hc, if_true]
    rw [ih (fun d hd => h d (List.mem_cons_of_mem c hd))]

theorem swL_length {p s : List Char} (h : swL p s = true) : p.length ≤ s.length := by
  induction p generalizing s with
  | nil => simp
  | cons a p ih =>
    cases s with
    | nil => simp [swL] at h
    | cons c cs =>
      simp only [swL, Bool.and_eq_true] at h
      simpa using ih h.2

theorem swL_append (p t : List Char) : swL p (p ++ t) = true := by
  induction p with
  | nil => rfl
  | cons a p ih => simp [swL, ih]

/-! ## Machinery: the scan combinator -/

theorem scanDelF_fuel {split : List Char → Option (List Char)}
    (hs : ∀ cs r, split cs = some r → r.length < cs.length) :
    ∀ f g cs, cs.length ≤ f → cs.length ≤ g → scanDelF split f cs = scanDelF split g cs := by
  intro f
  induction f with
  | zero =>
    intro g cs hf _
    have : cs = [] := List.length_eq_zero.mp (Nat.le_zero.mp hf)
    subst this
    cases g <;> rfl
  | succ f ih =>
    intro g cs hf hg
    cases cs with
    | nil => cases g <;> rfl
    | cons c r =>
      cases g with
      | zero => simp at hg
      | succ g =>
        simp only [scanDelF]
        cases h : split (c :: r) with
        | some rest =>
          have hlt := hs (c :: r) rest h
          simp only [List.length_cons] at hf hg hlt
          exact ih g rest (by omega) (by omega)
        | none =>
          simp only [List.length_cons] at hf hg
          rw [ih g r (by omega) (by omega)]

theorem scanDel_nil (split : List Char → Option (List Char)) : scanDel split [] = [] := rfl

theorem scanDel_cons_none {split : List Char → Option (List Char)} {c : Char} {r : List Char}
    (h : split (c :: r) = none) : scanDel split (c :: r) = c :: scanDel split r := by
  unfold scanDel
  simp only [List.length_cons, scanDelF, h]

theorem scanDel_consume {split : List Char → Option (List Char)}
    (hs : ∀ cs r, split cs = some r → r.length < cs.length)
    {cs rest : List Char} (h : split cs = some rest) :
    scanDel split cs = scanDel split rest := by
  have hlt := hs cs rest h
  cases cs with
  | nil => simp at hlt
  | cons c r =>
    unfold scanDel
    simp only [List.length_cons, scanDelF, h]
    have hl : rest.length ≤ r.length := by
      simp only [List.length_cons] at hlt
      omega
    exact scanDelF_fuel hs r.length rest.length rest hl (Nat.le_refl _)

theorem scanDel_skip {split : List Char → Option (List Char)} (l r : List Char)
    (h : ∀ l₂, l₂ ≠ [] → l₂ <:+ l → split (l₂ ++ r) = none) :
    scanDel split (l ++ r) = l ++ scanDel split r := by
  induction l with
  | nil => simp
  | cons c l ih =>
    have h0 : split (c :: (l ++ r)) = none := by
      have := h (c :: l) (by simp) (List.suffix_refl _)
      simpa using this
    simp only [List.cons_append]
    rw [scanDel_cons_none h0]
    rw [ih (fun l₂ hne hsuf => h l₂ hne (hsuf.trans (List.suffix_cons c l)))]

theorem scanDel_id {split : List Char → Option (List Char)} {cs : List Char}
    (h : ∀ t, t ≠ [] → t <:+ cs → split t = none) : scanDel split cs = cs := by
  have h2 : ∀ l₂, l₂ ≠ [] → l₂ <:+ cs → split (l₂ ++ []) = none := by
    intro l₂ hne hsuf
    simpa using h l₂ hne hsuf
  have h3 := scanDel_skip cs [] h2
  rw [List.append_nil] at h3
  rw [h3, scanDel_nil, List.append_nil]

theorem noMatchB_sound {split : List Char → Option (List Char)} {cs : List Char}
    (h : noMatchB split cs = true) : ∀ t, t <:+ cs → split t = none := by
  intro t ht
  have hmem : t ∈ cs.tails := (List.mem_tails t cs).mpr ht
  have := List.all_eq_true.mp h t hmem
  simpa [Option.isNone_iff_eq_none] using this

theorem scanDel_id_of_noMatchB {split : List Char → Option (List Char)} {cs : List Char}
    (h : noMatchB split cs = true) : scanDel split cs = cs :=
  scanDel_id (fun t _ ht => noMatchB_sound h t ht)

/-! ## Machinery: inversion and shrinking of the three matchers -/

theorem head?_some_cons {l : List Char} {a : Char} (h : l.head? = some a) : l = a :: l.tail := by
  cases l with
  | nil => simp at h
  | cons b t =>
    have hb : b = a := by simpa using h
    subst hb
    rfl

theorem take_of_swL {p s : List Char} (h : swL p s = true) : s.take p.length = p := by
  induction p generalizing s with
  | nil => simp
  | cons a p ih =>
    cases s with
    | nil => simp [swL] at h
    | cons c cs =>
      simp only [swL, Bool.and_eq_true, decide_eq_true_eq] at h
      rcases h with ⟨h1, h2⟩
      subst h1
      simp [ih h2]

theorem tagSplit_inv {cs r : List Char} (h : tagSplit cs = some r) :
    ∃ x, x ≠ [] ∧ (∀ c ∈ x, c ≠ '>') ∧ cs = '<' :: x ++ '>' :: r := by
  cases cs with
  | nil => simp [tagSplit] at h
  | cons c s =>
    simp only [tagSplit] at h
    by_cases hc : c = '<'
    case neg => rw [if_neg hc] at h; simp at h
    case pos =>
      subst hc
      rw [if_pos rfl] at h
      set x := s.takeWhile (fun d => d ≠ '>') with hx
      by_cases he : x.isEmpty = true
      · rw [if_pos he] at h; simp at h
      · rw [if_neg he] at h
        by_cases hh : (s.drop x.length).head? = some '>'
        · rw [if_pos hh] at h
          have hr : (s.drop x.length).tail = r := by simpa using h
          have hcons : s.drop x.length = '>' :: r := by
            rw [← hr]
            exact head?_some_cons hh
          have hsd := takeWhile_append_drop (fun d => d ≠ '>') s
          rw [← hx, hcons] at hsd
          refine ⟨x, ?_, ?_, ?_⟩
          · intro hnil
            rw [hnil] at he
            exact he rfl
          · intro c hcm
            have := List.mem_takeWhile_imp (hx ▸ hcm)
            simpa using this
          · rw [← hsd]
            simp
        · rw [if_neg hh] at h; simp at h

theorem tagSplit_shrink : ∀ cs r, tagSplit cs = some r → r.length < cs.length := by
  intro cs r h
  rcases tagSplit_inv h with ⟨x, hne, _, hcs⟩
  subst hcs
  simp only [List.length_cons, List.length_append]
  omega

theorem matchPre_some_length :
    ∀ (pat : List CC) (cs r : List Char), matchPre pat cs = some r →
      cs.length = pat.length + r.length := by
  intro pat
  induction pat with
  | nil =>
    intro cs r h
    simp only [matchPre, Option.some.injEq] at h
    subst h
    simp
  | cons p ps ih =>
    intro cs r h
    cases cs with
    | nil => simp [matchPre] at h
    | cons c s =>
      simp only [matchPre] at h
      by_cases hm : ccMatch p c = true
      · rw [if_pos hm] at h
        have := ih s r h
        simp only [List.length_cons, this]
        omega
      · rw [if_neg hm] at h
        simp at h

theorem tsSplit_shrink : ∀ cs r, tsSplit cs = some r → r.length < cs.length := by
  intro cs r h
  have hl := matchPre_some_length tsPat cs r h
  have hlen : tsPat.length = 29 := by decide
  omega

theorem alignSplit_inv {cs r : List Char} (h : alignSplit cs = some r) :
    ∃ x, x ≠ [] ∧ (∀ c ∈ x, c ≠ '%') ∧ cs = alignLit ++ x ++ '%' :: r := by
  unfold alignSplit at h
  by_cases hsw : swL alignLit cs = true
  case neg => rw [if_neg hsw] at h; simp at h
  case pos =>
    rw [if_pos hsw] at h
    set q := cs.drop alignLit.length with hq
    set x := q.takeWhile (fun d => d ≠ '%') with hx
    by_cases he : x.isEmpty = true
    · rw [if_pos he] at h; simp at h
    · rw [if_neg he] at h
      by_cases hh : (q.drop x.length).head? = some '%'
      · rw [if_pos hh] at h
        have hr : (q.drop x.length).tail = r := by simpa using h
        have hcons : q.drop x.length = '%' :: r := by
          rw [← hr]
          exact head?_some_cons hh
        have hsd := takeWhile_append_drop (fun d => d ≠ '%') q
        rw [← hx, hcons] at hsd
        have htk : cs.take alignLit.length = alignLit := take_of_swL hsw
        refine ⟨x, ?_, ?_, ?_⟩
        · intro hnil
          rw [hnil] at he
          exact he rfl
        · intro c hcm
          have := List.mem_takeWhile_imp (hx ▸ hcm)
          simpa using this
        · conv_lhs => rw [← List.take_append_drop alignLit.length cs]
          rw [htk, ← hq, ← hsd]
          simp [List.append_assoc]
      · rw [if_neg hh] at h; simp at h

theorem alignSplit_shrink : ∀ cs r, alignSplit cs = some r → r.length < cs.length := by
  intro cs r h
  rcases alignSplit_inv h with ⟨x, hne, _, hcs⟩
  subst hcs
  simp only [List.length_append, List.length_cons]
  omega

/-! ## Claim C10 — the positioning pattern accepts non-numeric values -/

theorem alignSplit_render {s : List Char} (t : List Char) (hne : s ≠ [])
    (hp : ∀ c ∈ s, c ≠ '%') :
    alignSplit (alignLit ++ (s ++ '%' :: t)) = some t := by
  unfold alignSplit
  rw [if_pos (swL_append alignLit (s ++ '%' :: t))]
  rw [drop_append_len alignLit (s ++ '%' :: t)]
  have h1 : (s ++ '%' :: t).takeWhile (fun d => d ≠ '%') = s := by
    refine takeWhile_all_append ?_ (by simp) t
    intro c hc
    simpa using hp c hc
  rw [h1, drop_append_len s ('%' :: t)]
  have he : s.isEmpty = false := by
    cases s with
    | nil => exact absurd rfl hne
    | cons a s => rfl
  simp [he]

/-- C10: the positioning-artifact removal accepts an arbitrary non-`'%'`
position value (not only digits): `align:start position:` followed by any
nonempty `'%'`-free text and a `'%'` is matched and removed. -/
theorem c10_align_accepts_nonnumeric (s t : List Char) (hne : s ≠ [])
    (hp : ∀ c ∈ s, c ≠ '%') :
    alignSplit (alignLit ++ (s ++ '%' :: t)) = some t
    ∧ rmAlign (alignLit ++ (s ++ '%' :: t)) = rmAlign t := by
  refine ⟨alignSplit_render t hne hp, ?_⟩
  exact scanDel_consume alignSplit_shrink (alignSplit_render t hne hp)

theorem c10_align_accepts_nonnumeric_witness :
    ("abc".data ≠ [] ∧ ∀ c ∈ "abc".data, c ≠ '%')
    ∧ alignSplit (alignLit ++ ("abc".data ++ '%' :: " tail".data)) = some " tail".data
    ∧ rmAlign (alignLit ++ ("abc".data ++ '%' :: " tail".data)) = rmAlign " tail".data := by
  refine ⟨⟨by decide, by decide⟩, ?_, ?_⟩
  · exact (c10_align_accepts_nonnumeric "abc".data " tail".data (by decide) (by decide)).1
  · exact (c10_align_accepts_nonnumeric "abc".data " tail".data (by decide) (by decide)).2

theorem c7_header_order_independent_witness :
    swL "WEBVTT".data "WEBVTT".data = true
    ∧ swL "Language:".data "Language: en".data = true
    ∧ dropHeader ["WEBVTT".data, "Language: en".data, "body".data] = ["body".data] := by
  refine ⟨by decide, by decide, ?_⟩
  exact c7_header_order_independent "WEBVTT".data "Language: en".data ["body".data]
    (by decide) (by decide)

/-! ## Machinery: character-set facts -/

theorem isEmpty_true_iff {l : List Char} : l.isEmpty = true ↔ l = [] := by
  cases l <;> simp

theorem lbWs {c : Char} (h : isLB c = true) : isWS c = true := by
  have hm : c ∈ lbList := by simpa [isLB] using h
  have hall : ∀ x ∈ lbList, isWS x = true := by decide
  exact hall c hm

theorem ws_ne_of_not_in {c x : Char} (h : isWS c = true)
    (hx : ∀ y ∈ wsList, y ≠ x) : c ≠ x := by
  have hm : c ∈ wsList := by simpa [isWS] using h
  exact hx c hm

theorem lb_of_mem_check {c : Char} (h : isLB c = false) {y : Char} (hy : y ∈ lbList)
    (he : c = y) : False := by
  subst he
  have : isLB c = true := by simp [isLB]; exact hy
  rw [h] at this
  exact Bool.false_ne_true this

/-! ## Machinery: `splitlines` then `join` is terminator normalization -/

theorem slAux_ne_nil (cur s : List Char) : slAux cur s ≠ [] := by
  induction cur, s using slAux.induct with
  | case1 cur => simp [slAux]
  | case2 cur r ih => simp [slAux]
  | case3 cur c r hne hlb ih =>
    rw [slAux.eq_3 cur c r (fun r1 h1 h2 => hne r1 h1 h2)]
    simp [hlb]
  | case4 cur c r hne hlb ih =>
    rw [slAux.eq_3 cur c r (fun r1 h1 h2 => hne r1 h1 h2)]
    simp [hlb]
    exact ih

theorem joinNL_cons_ne {l : List Char} {ls : List (List Char)} (h : ls ≠ []) :
    joinNL (l :: ls) = l ++ '\n' :: joinNL ls := by
  cases ls with
  | nil => exact absurd rfl h
  | cons l2 ls => rfl

theorem slAux_join (cur s : List Char) :
    joinNL (slAux cur s) = cur.reverse ++ nlNorm s := by
  induction cur, s using slAux.induct with
  | case1 cur => simp [slAux, nlNorm, joinNL]
  | case2 cur r ih =>
    rw [slAux]
    by_cases hr : r.isEmpty = true
    · have : r = [] := isEmpty_true_iff.mp hr
      subst this
      simp [nlNorm, joinNL]
    · rw [if_neg hr, joinNL_cons_ne (slAux_ne_nil [] r), ih]
      rw [show nlNorm ('\r' :: '\n' :: r) = if r.isEmpty then [] else '\n' :: nlNorm r from rfl]
      rw [if_neg hr]
      simp
  | case3 cur c r hne hlb ih =>
    rw [slAux.eq_3 cur c r (fun r1 h1 h2 => hne r1 h1 h2), if_pos hlb]
    rw [nlNorm.eq_3 c r (fun r1 h1 h2 => hne r1 h1 h2), if_pos hlb]
    by_cases hr : r.isEmpty = true
    · have : r = [] := isEmpty_true_iff.mp hr
      subst this
      simp [joinNL]
    · rw [if_neg hr, if_neg hr, joinNL_cons_ne (slAux_ne_nil [] r), ih]
      simp
  | case4 cur c r hne hlb ih =>
    rw [slAux.eq_3 cur c r (fun r1 h1 h2 => hne r1 h1 h2), if_neg hlb]
    rw [nlNorm.eq_3 c r (fun r1 h1 h2 => hne r1 h1 h2), if_neg hlb]
    rw [ih]
    simp

theorem join_splitlines (s : List Char) : joinNL (pySplitlines s) = nlNorm s := by
  unfold pySplitlines
  by_cases h : s.isEmpty = true
  · have : s = [] := isEmpty_true_iff.mp h
    subst this
    rfl
  · rw [if_neg h]
    simpa using slAux_join [] s

theorem nlNorm_id_of_noLB {y : List Char} (h : ∀ c ∈ y, isLB c = false) : nlNorm y = y := by
  induction y using nlNorm.induct with
  | case1 => rfl
  | case2 r hr => exact absurd (h '\r' (List.mem_cons_self _ _)) (by decide)
  | case3 r hr ih => exact absurd (h '\r' (List.mem_cons_self _ _)) (by decide)
  | case4 c r hne hlb hr =>
    have h2 := h c (List.mem_cons_self _ _)
    rw [h2] at hlb
    exact absurd hlb (by simp)
  | case5 c r hne hlb hr ih =>
    have h2 := h c (List.mem_cons_self _ _)
    rw [h2] at hlb
    exact absurd hlb (by simp)
  | case6 c r hne hlb ih =>
    rw [nlNorm.eq_3 c r (fun r1 h1 h2 => hne r1 h1 h2), if_neg hlb]
    rw [ih (fun d hd => h d (List.mem_cons_of_mem c hd))]

/-! ## Machinery: properties of collapse and strip -/

theorem cgo_cons (b : Bool) (x : Char) (xs : List Char) :
    cgo b (x :: xs)
      = if isWS x = true then (if b = true then cgo true xs else ' ' :: cgo true xs)
        else x :: cgo false xs := rfl

theorem dtw_cons (x : Char) (xs : List Char) :
    dtw (x :: xs)
      = if (dtw xs).isEmpty = true then (if isWS x = true then [] else [x])
        else x :: dtw xs := rfl

theorem allWsSp_of_mem {y z : List Char} (hsub : ∀ c ∈ y, c ∈ z)
    (h : allWsSp z = true) : allWsSp y = true := by
  simp only [allWsSp, List.all_eq_true] at h ⊢
  exact fun c hc => h c (hsub c hc)

theorem allWsSp_cons {x : Char} {xs : List Char} :
    allWsSp (x :: xs) = ((!isWS x || x = ' ') && allWsSp xs) := by
  simp [allWsSp]

theorem cgo_allWsSp : ∀ (b : Bool) (s : List Char), allWsSp (cgo b s) = true := by
  intro b s
  induction s generalizing b with
  | nil => rfl
  | cons c r ih =>
    rw [cgo_cons]
    by_cases hws : isWS c = true
    · rw [if_pos hws]
      cases b with
      | true => exact ih true
      | false =>
        simp only [if_neg (by simp : ¬false = true)]
        rw [allWsSp_cons]
        simp only [Bool.and_eq_true]
        exact ⟨by decide, ih true⟩
    · rw [if_neg hws]
      rw [allWsSp_cons]
      simp only [Bool.and_eq_true]
      refine ⟨?_, ih false⟩
      simp [hws]

theorem cgo_true_headNotWs : ∀ s : List Char, headNotWs (cgo true s) = true := by
  intro s
  induction s with
  | nil => rfl
  | cons c r ih =>
    rw [cgo_cons]
    by_cases hws : isWS c = true
    · rw [if_pos hws, if_pos rfl]
      exact ih
    · rw [if_neg hws]
      simp [headNotWs, hws]

theorem noAdjWs_cons_of_head {a : Char} {X : List Char} (h1 : headNotWs X = true)
    (h2 : noAdjWs X = true) : noAdjWs (a :: X) = true := by
  cases X with
  | nil => rfl
  | cons x t =>
    simp only [headNotWs, Bool.not_eq_true'] at h1
    simp only [noAdjWs, Bool.and_eq_true]
    exact ⟨by simp [h1], h2⟩

theorem noAdjWs_cons_of_nonws {a : Char} {X : List Char} (h1 : isWS a = false)
    (h2 : noAdjWs X = true) : noAdjWs (a :: X) = true := by
  cases X with
  | nil => rfl
  | cons x t =>
    simp only [noAdjWs, Bool.and_eq_true]
    exact ⟨by simp [h1], h2⟩

theorem cgo_noAdjWs : ∀ (b : Bool) (s : List Char), noAdjWs (cgo b s) = true := by
  intro b s
  induction s generalizing b with
  | nil => rfl
  | cons c r ih =>
    rw [cgo_cons]
    by_cases hws : isWS c = true
    · rw [if_pos hws]
      cases b with
      | true => exact ih true
      | false =>
        simp only [if_neg (by simp : ¬false = true)]
        exact noAdjWs_cons_of_head (cgo_true_headNotWs r) (ih true)
    · rw [if_neg hws]
      exact noAdjWs_cons_of_nonws (by simpa using hws) (ih false)

theorem dtw_mem : ∀ {s : List Char} {c : Char}, c ∈ dtw s → c ∈ s := by
  intro s
  induction s with
  | nil => intro c h; simpa [dtw] using h
  | cons a r ih =>
    intro c h
    rw [dtw_cons] at h
    by_cases he : (dtw r).isEmpty = true
    · rw [if_pos he] at h
      by_cases hws : isWS a = true
      · rw [if_pos hws] at h
        simp at h
      · rw [if_neg hws] at h
        simp at h
        simp [h]
    · rw [if_neg he] at h
      rcases List.mem_cons.mp h with h | h
      · simp [h]
      · exact List.mem_cons_of_mem a (ih h)

theorem dtw_isPre : ∀ s : List Char, ∃ t, s = dtw s ++ t := by
  intro s
  induction s with
  | nil => exact ⟨[], rfl⟩
  | cons a r ih =>
    rw [dtw_cons]
    by_cases he : (dtw r).isEmpty = true
    · rw [if_pos he]
      by_cases hws : isWS a = true
      · rw [if_pos hws]
        exact ⟨a :: r, rfl⟩
      · rw [if_neg hws]
        exact ⟨r, rfl⟩
    · rw [if_neg he]
      rcases ih with ⟨t, ht⟩
      refine ⟨t, ?_⟩
      conv_lhs => rw [ht]
      simp

theorem dlw_headNotWs : ∀ s : List Char, headNotWs (dlw s) = true := by
  intro s
  induction s with
  | nil => rfl
  | cons c r ih =>
    by_cases hws : isWS c = true
    · simpa [dlw, hws] using ih
    · simp [dlw, hws, headNotWs]

theorem dlw_suffix : ∀ s : List Char, ∃ t, s = t ++ dlw s := by
  intro s
  induction s with
  | nil => exact ⟨[], rfl⟩
  | cons c r ih =>
    by_cases hws : isWS c = true
    · rcases ih with ⟨t, ht⟩
      refine ⟨c :: t, ?_⟩
      simp only [dlw, hws, if_true]
      rw [List.cons_append, ← ht]
    · exact ⟨[], by simp [dlw, hws]⟩

theorem dlw_mem {s : List Char} {c : Char} (h : c ∈ dlw s) : c ∈ s := by
  rcases dlw_suffix s with ⟨t, ht⟩
  rw [ht]
  exact List.mem_append_right t h

theorem noAdjWs_tail {x : Char} {l : List Char} (h : noAdjWs (x :: l) = true) :
    noAdjWs l = true := by
  cases l with
  | nil => rfl
  | cons y t =>
    simp only [noAdjWs, Bool.and_eq_true] at h
    exact h.2

theorem noAdjWs_append_left : ∀ a b : List Char, noAdjWs (a ++ b) = true → noAdjWs a = true
  | [], _, _ => rfl
  | [_], _, _ => rfl
  | x :: y :: a, b, h => by
    simp only [List.cons_append, noAdjWs, Bool.and_eq_true] at h ⊢
    exact ⟨h.1, noAdjWs_append_left (y :: a) b h.2⟩

theorem noAdjWs_append_right : ∀ a b : List Char, noAdjWs (a ++ b) = true → noAdjWs b = true
  | [], _, h => h
  | x :: a, b, h => by
    rw [List.cons_append] at h
    exact noAdjWs_append_right a b (noAdjWs_tail h)

theorem lastNotWs_cons_ne {c : Char} {l : List Char} (h : l ≠ []) :
    lastNotWs (c :: l) = lastNotWs l := by
  cases l with
  | nil => exact absurd rfl h
  | cons d t => rfl

theorem dtw_lastNotWs : ∀ s : List Char, lastNotWs (dtw s) = true := by
  intro s
  induction s with
  | nil => rfl
  | cons a r ih =>
    rw [dtw_cons]
    by_cases he : (dtw r).isEmpty = true
    · rw [if_pos he]
      by_cases hws : isWS a = true
      · rw [if_pos hws]; rfl
      · rw [if_neg hws]
        simpa [lastNotWs] using hws
    · rw [if_neg he]
      have hne : dtw r ≠ [] := by simpa [isEmpty_true_iff] using he
      rw [lastNotWs_cons_ne hne]
      exact ih

theorem lastNotWs_append_right : ∀ t u : List Char, u ≠ [] →
    lastNotWs (t ++ u) = true → lastNotWs u = true
  | [], _, _, h => h
  | c :: t, u, hu, h => by
    rw [List.cons_append, lastNotWs_cons_ne (by simp [hu])] at h
    exact lastNotWs_append_right t u hu h

theorem dtw_id_of_lastNotWs : ∀ {s : List Char}, lastNotWs s = true → dtw s = s := by
  intro s
  induction s with
  | nil => exact fun _ => rfl
  | cons c r ih =>
    intro h
    cases r with
    | nil =>
      simp only [lastNotWs, Bool.not_eq_true'] at h
      simp [dtw, h]
    | cons d r2 =>
      rw [lastNotWs_cons_ne (by simp)] at h
      have h2 := ih h
      rw [dtw_cons, h2]
      simp

theorem dlw_id_of_headNotWs : ∀ {s : List Char}, headNotWs s = true → dlw s = s := by
  intro s h
  cases s with
  | nil => rfl
  | cons c r =>
    simp only [headNotWs, Bool.not_eq_true'] at h
    simp [dlw, h]

theorem cgo_true_eq_false_of_head {t : List Char} (h : headNotWs t = true) :
    cgo true t = cgo false t := by
  cases t with
  | nil => rfl
  | cons c r =>
    simp only [headNotWs, Bool.not_eq_true'] at h
    rw [cgo_cons, cgo_cons, if_neg (by simp [h]), if_neg (by simp [h])]

theorem cgo_id : ∀ (y : List Char), allWsSp y = true → noAdjWs y = true →
    headNotWs y = true → cgo false y = y
  | [], _, _, _ => rfl
  | [c], _, _, hh => by
    simp only [headNotWs, Bool.not_eq_true'] at hh
    rw [cgo_cons, if_neg (by simp [hh])]
    rfl
  | c :: d :: r, ha, hn, hh => by
    simp only [headNotWs, Bool.not_eq_true'] at hh
    rw [allWsSp_cons, allWsSp_cons] at ha
    simp only [Bool.and_eq_true] at ha
    rcases ha with ⟨hac, had, har⟩
    simp only [noAdjWs, Bool.and_eq_true] at hn
    rcases hn with ⟨hn1, hn2⟩
    by_cases hd : isWS d = true
    · have hd2 : d = ' ' := by
        simp only [Bool.or_eq_true, Bool.not_eq_true', decide_eq_true_eq] at had
        rcases had with h | h
        · rw [h] at hd
          simp at hd
        · exact h
      subst hd2
      have hr_head : headNotWs r = true := by
        cases r with
        | nil => rfl
        | cons e r2 =>
          simp only [noAdjWs, Bool.and_eq_true] at hn2
          have h3 := hn2.1
          rw [hd] at h3
          simp only [Bool.true_and, Bool.not_eq_true'] at h3
          simp [headNotWs, h3]
      rw [cgo_cons, if_neg (by simp [hh])]
      rw [cgo_cons, if_pos hd, if_neg (by simp : ¬false = true)]
      rw [cgo_true_eq_false_of_head hr_head]
      have hrec : cgo false r = r := by
        refine cgo_id r har (noAdjWs_tail hn2) hr_head
      rw [hrec]
    · rw [cgo_cons, if_neg (by simp [hh])]
      have hrec : cgo false (d :: r) = d :: r := by
        refine cgo_id (d :: r) ?_ hn2 ?_
        · rw [allWsSp_cons]
          simp only [Bool.and_eq_true]
          exact ⟨had, har⟩
        · simp only [headNotWs]
          simpa using hd
      rw [hrec]

/-! ## Machinery: strip-collapse is invariant under terminator normalization -/

theorem dtw_cons_congr {x : Char} {X₁ X₂ : List Char} (h : dtw X₁ = dtw X₂) :
    dtw (x :: X₁) = dtw (x :: X₂) := by
  rw [dtw_cons, dtw_cons, h]

theorem dtw_cgo_nlNorm : ∀ s : List Char, ∀ b : Bool,
    dtw (cgo b (nlNorm s)) = dtw (cgo b s) := by
  intro s
  induction s using nlNorm.induct with
  | case1 => intro b; rfl
  | case2 r hr =>
    have : r = [] := isEmpty_true_iff.mp hr
    subst this
    intro b
    cases b <;> decide
  | case3 r hr ih =>
    intro b
    rw [nlNorm.eq_2, if_neg hr]
    rw [cgo_cons, cgo_cons, if_pos (by decide : isWS '\n' = true),
      if_pos (by decide : isWS '\r' = true)]
    rw [show cgo true ('\n' :: r) = cgo true r from by
      rw [cgo_cons, if_pos (by decide : isWS '\n' = true), if_pos rfl]]
    cases b with
    | true =>
      simp only [if_pos rfl]
      exact ih true
    | false =>
      simp only [if_neg (by simp : ¬false = true)]
      exact dtw_cons_congr (ih true)
  | case4 c r hne hlb hr =>
    have : r = [] := isEmpty_true_iff.mp hr
    subst this
    intro b
    rw [nlNorm.eq_3 c [] (fun r1 h1 h2 => hne r1 h1 h2), if_pos hlb]
    simp only [List.isEmpty_nil, if_pos rfl]
    have hws : isWS c = true := lbWs hlb
    rw [cgo_cons, if_pos hws]
    cases b with
    | true => rfl
    | false =>
      simp only [if_neg (by simp : ¬false = true)]
      rfl
  | case5 c r hne hlb hr ih =>
    intro b
    rw [nlNorm.eq_3 c r (fun r1 h1 h2 => hne r1 h1 h2), if_pos hlb, if_neg hr]
    have hws : isWS c = true := lbWs hlb
    rw [cgo_cons, cgo_cons, if_pos (by decide : isWS '\n' = true), if_pos hws]
    cases b with
    | true =>
      simp only [if_pos rfl]
      exact ih true
    | false =>
      simp only [if_neg (by simp : ¬false = true)]
      exact dtw_cons_congr (ih true)
  | case6 c r hne hlb ih =>
    intro b
    rw [nlNorm.eq_3 c r (fun r1 h1 h2 => hne r1 h1 h2), if_neg hlb]
    by_cases hws : isWS c = true
    · rw [cgo_cons, cgo_cons, if_pos hws, if_pos hws]
      cases b with
      | true =>
        simp only [if_pos rfl]
        exact ih true
      | false =>
        simp only [if_neg (by simp : ¬false = true)]
        exact dtw_cons_congr (ih true)
    · rw [cgo_cons, cgo_cons, if_neg hws, if_neg hws]
      exact dtw_cons_congr (ih false)

/-! ## Machinery: header stage -/

theorem dropHeader_id_of_headerFree {s : List Char} (h : headerFreeB s = true) :
    dropHeader (pySplitlines s) = pySplitlines s := by
  unfold headerFreeB at h
  cases hl : pySplitlines s with
  | nil => rfl
  | cons l ls =>
    rw [hl] at h
    simp only [Bool.not_eq_true', Bool.or_eq_false_iff] at h
    rcases h with ⟨⟨hw, hk⟩, hg⟩
    unfold dropHeader
    have e1 : popIf (swL "WEBVTT".data) (l :: ls) = l :: ls := by
      simp only [popIf]
      simp [hw]
    have e2 : popIf (swL "Kind:".data) (l :: ls) = l :: ls := by
      simp only [popIf]
      simp [hk]
    have e3 : popIf (swL "Language:".data) (l :: ls) = l :: ls := by
      simp only [popIf]
      simp [hg]
    rw [e1, e2, e3]

/-! ## Machinery: shape of every cleaner output -/

theorem stripCollapse_props (z : List Char) :
    allWsSp (pyStrip (collapseWS z)) = true
    ∧ noAdjWs (pyStrip (collapseWS z)) = true
    ∧ headNotWs (pyStrip (collapseWS z)) = true
    ∧ lastNotWs (pyStrip (collapseWS z)) = true := by
  unfold pyStrip collapseWS
  have hA : allWsSp (cgo false z) = true := cgo_allWsSp false z
  have hN : noAdjWs (cgo false z) = true := cgo_noAdjWs false z
  refine ⟨?_, ?_, dlw_headNotWs _, ?_⟩
  · refine allWsSp_of_mem ?_ hA
    intro c hc
    exact dtw_mem (dlw_mem hc)
  · rcases dtw_isPre (cgo false z) with ⟨t, ht⟩
    have h1 : noAdjWs (dtw (cgo false z)) = true := by
      refine noAdjWs_append_left _ t ?_
      rw [← ht]
      exact hN
    rcases dlw_suffix (dtw (cgo false z)) with ⟨u, hu⟩
    refine noAdjWs_append_right u _ ?_
    rw [← hu]
    exact h1
  · have h1 : lastNotWs (dtw (cgo false z)) = true := dtw_lastNotWs _
    by_cases hnil : dlw (dtw (cgo false z)) = []
    · rw [hnil]
      rfl
    · rcases dlw_suffix (dtw (cgo false z)) with ⟨u, hu⟩
      refine lastNotWs_append_right u _ hnil ?_
      rw [← hu]
      exact h1

theorem noLB_of_allWsSp {y : List Char} (h : allWsSp y = true) :
    ∀ c ∈ y, isLB c = false := by
  intro c hc
  by_contra hlb
  have hlb2 : isLB c = true := by simpa using hlb
  have hws := lbWs hlb2
  simp only [allWsSp, List.all_eq_true] at h
  have h2 := h c hc
  rw [hws] at h2
  simp only [Bool.not_true, Bool.false_or, decide_eq_true_eq] at h2
  subst h2
  exact absurd hlb2 (by decide)

/-! ## Claim C9 — totality and the pattern-free case -/

/-- C9: the cleaner is a total function by construction; when the first
line carries no header marker and the joined text contains no tag,
timestamp or positioning match, the output is exactly the input with
whitespace collapsed to single spaces and trimmed. -/
theorem c9_pattern_free_collapse_trim (s : List Char)
    (hh : headerFreeB s = true)
    (h1 : noMatchB tagSplit (nlNorm s) = true)
    (h2 : noMatchB tsSplit (nlNorm s) = true)
    (h3 : noMatchB alignSplit (nlNorm s) = true) :
    cleanList s = pyStrip (collapseWS s) := by
  unfold cleanList
  rw [dropHeader_id_of_headerFree hh, join_splitlines]
  rw [show rmTag (nlNorm s) = nlNorm s from scanDel_id_of_noMatchB h1]
  rw [show rmTs (nlNorm s) = nlNorm s from scanDel_id_of_noMatchB h2]
  rw [show rmAlign (nlNorm s) = nlNorm s from scanDel_id_of_noMatchB h3]
  unfold pyStrip collapseWS
  exact congrArg dlw (dtw_cgo_nlNorm s false)

theorem c9_pattern_free_collapse_trim_witness :
    (headerFreeB " Hello,\tworld \n".data = true
    ∧ noMatchB tagSplit (nlNorm " Hello,\tworld \n".data) = true
    ∧ noMatchB tsSplit (nlNorm " Hello,\tworld \n".data) = true
    ∧ noMatchB alignSplit (nlNorm " Hello,\tworld \n".data) = true)
    ∧ cleanList " Hello,\tworld \n".data = pyStrip (collapseWS " Hello,\tworld \n".data) := by
  refine ⟨⟨by decide, by decide, by decide, by decide⟩, ?_⟩
  exact c9_pattern_free_collapse_trim " Hello,\tworld \n".data
    (by decide) (by decide) (by decide) (by decide)

/-! ## Claim C6 — idempotence of cleaning

As stated — `clean(clean x) = clean x` for every `x` that itself contains
no markup, timestamps or positioning artifacts — the claim is false on the
code: cleaning can *create* header lines (`clean " WEBVTT" = "WEBVTT"`,
which a second pass strips to `""`), and whitespace collapse can create
new timestamp matches.  The amended claim conditions on the *output*
`clean x`: when `clean x` contains no removable pattern and does not start
with a header marker, a second clean is the identity. -/

/-- C6 counterexample: `x = " WEBVTT"` has no tag, timestamp or
positioning match, yet `clean (clean x) ≠ clean x`. -/
theorem c6_counterexample :
    noMatchB tagSplit " WEBVTT".data = true
    ∧ noMatchB tsSplit " WEBVTT".data = true
    ∧ noMatchB alignSplit " WEBVTT".data = true
    ∧ clean_subtitles (clean_subtitles " WEBVTT") ≠ clean_subtitles " WEBVTT" := by
  refine ⟨by decide, by decide, by decide, by decide⟩

/-- C6 amended: for every input whose cleaned form contains no tag,
timestamp or positioning match and does not begin with a header marker,
cleaning is idempotent. -/
theorem c6_idempotent_on_clean_output (x : List Char)
    (hT : noMatchB tagSplit (cleanList x) = true)
    (hS : noMatchB tsSplit (cleanList x) = true)
    (hA : noMatchB alignSplit (cleanList x) = true)
    (hH : headerFreeB (cleanList x) = true) :
    cleanList (cleanList x) = cleanList x := by
  have hp := stripCollapse_props (rmAlign (rmTs (rmTag (joinNL (dropHeader (pySplitlines x))))))
  rcases hp with ⟨hA1, hN1, hH1, hL1⟩
  have hA2 : allWsSp (cleanList x) = true := hA1
  have hN2 : noAdjWs (cleanList x) = true := hN1
  have hH2 : headNotWs (cleanList x) = true := hH1
  have hL2 : lastNotWs (cleanList x) = true := hL1
  set y := cleanList x with hy
  have hnoLB := noLB_of_allWsSp hA2
  unfold cleanList
  have hjoin : joinNL (dropHeader (pySplitlines y)) = y := by
    rw [dropHeader_id_of_headerFree hH, join_splitlines]
    exact nlNorm_id_of_noLB hnoLB
  rw [hjoin]
  rw [show rmTag y = y from scanDel_id_of_noMatchB hT]
  rw [show rmTs y = y from scanDel_id_of_noMatchB hS]
  rw [show rmAlign y = y from scanDel_id_of_noMatchB hA]
  rw [show collapseWS y = y from cgo_id y hA2 hN2 hH2]
  unfold pyStrip
  rw [dtw_id_of_lastNotWs hL2, dlw_id_of_headNotWs hH2]

theorem c6_idempotent_on_clean_output_witness :
    (noMatchB tagSplit (cleanList "Hello world".data) = true
    ∧ noMatchB tsSplit (cleanList "Hello world".data) = true
    ∧ noMatchB alignSplit (cleanList "Hello world".data) = true
    ∧ headerFreeB (cleanList "Hello world".data) = true)
    ∧ cleanList (cleanList "Hello world".data) = cleanList "Hello world".data := by
  refine ⟨⟨by decide, by decide, by decide, by decide⟩, ?_⟩
  exact c6_idempotent_on_clean_output "Hello world".data
    (by decide) (by decide) (by decide) (by decide)

/-! ## Machinery for the markup-exhaustiveness claim -/

theorem fn_ne {f : Char → Bool} {c x : Char} (h : f c = true) (hx : f x = false) : c ≠ x := by
  intro he
  rw [he, hx] at h
  exact absurd h (by simp)

theorem ws_to_mem {c : Char} (h : isWS c = true) : c ∈ wsList := by
  simpa [isWS] using h

theorem dig_not_lb {c : Char} (h : isDig c = true) : isLB c = false := by
  by_contra hlb
  have hlb2 : isLB c = true := by simpa using hlb
  have hm : c ∈ lbList := by simpa [isLB] using hlb2
  have hall : ∀ x ∈ lbList, isDig x = false := by decide
  rw [hall c hm] at h
  exact absurd h (by simp)

theorem ws_not_dig {c : Char} (h : isWS c = true) : isDig c = false := by
  have hm := ws_to_mem h
  have hall : ∀ x ∈ wsList, isDig x = false := by decide
  exact hall c hm

theorem matchPre_extend : ∀ (pat : List CC) (w r : List Char),
    matchPre pat w = some [] → matchPre pat (w ++ r) = some r := by
  intro pat
  induction pat with
  | nil =>
    intro w r h
    simp only [matchPre, Option.some.injEq] at h
    subst h
    rfl
  | cons p ps ih =>
    intro w r h
    cases w with
    | nil => simp [matchPre] at h
    | cons c w2 =>
      simp only [matchPre] at h ⊢
      by_cases hm : ccMatch p c = true
      · rw [if_pos hm] at h ⊢
        exact ih w2 r h
      · rw [if_neg hm] at h
        simp at h

theorem ccExcludes_sound {p : CC} {x c : Char} (he : ccExcludes p x = true)
    (hm : ccMatch p c = true) : c ≠ x := by
  cases p with
  | dig =>
    simp only [ccExcludes, Bool.not_eq_true'] at he
    exact fn_ne hm he
  | lit c₀ =>
    simp only [ccExcludes, bne_iff_ne, ne_eq] at he
    simp only [ccMatch, decide_eq_true_eq] at hm
    subst hm
    exact fun h2 => he h2.symm

theorem matchPre_exact_notMem {x : Char} : ∀ (pat : List CC) (w : List Char),
    pat.all (fun p => ccExcludes p x) = true → matchPre pat w = some [] → x ∉ w := by
  intro pat
  induction pat with
  | nil =>
    intro w hall h
    simp only [matchPre, Option.some.injEq] at h
    subst h
    simp
  | cons p ps ih =>
    intro w hall h
    cases w with
    | nil => simp
    | cons c w2 =>
      simp only [List.all_cons, Bool.and_eq_true] at hall
      simp only [matchPre] at h
      by_cases hm : ccMatch p c = true
      · rw [if_pos hm] at h
        intro hmem
        rcases List.mem_cons.mp hmem with hx | hx
        · exact absurd hx.symm (ccExcludes_sound hall.1 hm)
        · exact absurd hx (ih w2 hall.2 h)
      · rw [if_neg hm] at h
        simp at h

theorem ts_render_ne {w : List Char} (h : matchPre tsPat w = some []) {x : Char}
    (hall : tsPat.all (fun p => ccExcludes p x) = true) : x ∉ w :=
  matchPre_exact_notMem tsPat w hall h

theorem ts_render_noLB {w : List Char} (h : matchPre tsPat w = some []) :
    ∀ c ∈ w, isLB c = false := by
  intro c hc
  by_contra hlb
  have hlb2 : isLB c = true := by simpa using hlb
  have hm : c ∈ lbList := by simpa [isLB] using hlb2
  have hall : ∀ x ∈ lbList, tsPat.all (fun p => ccExcludes p x) = true := by decide
  exact absurd hc (ts_render_ne h (hall c hm))

theorem ts_render_head {w : List Char} (h : matchPre tsPat w = some []) :
    ∃ a w2, w = a :: w2 ∧ isDig a = true := by
  cases w with
  | nil => simp [tsPat, stampPat, matchPre] at h
  | cons a w2 =>
    refine ⟨a, w2, rfl, ?_⟩
    have : matchPre tsPat (a :: w2) = some [] := h
    rw [show tsPat = CC.dig :: (tsPat.tail) from rfl] at this
    simp only [matchPre, ccMatch] at this
    by_cases hd : isDig a = true
    · exact hd
    · rw [if_neg (by simpa [ccMatch] using hd)] at this
      simp at this

theorem suffix_head_mem {l₂ w : List Char} {c : Char} {t : List Char}
    (hsuf : l₂ <:+ w) (he : l₂ = c :: t) : c ∈ w := by
  subst he
  exact hsuf.subset (List.mem_cons_self c t)

theorem scanDel_skip_of_heads {split : List Char → Option (List Char)} (l r : List Char)
    (h : ∀ (c : Char) (t : List Char), c ∈ l → split (c :: t) = none) :
    scanDel split (l ++ r) = l ++ scanDel split r := by
  refine scanDel_skip l r ?_
  intro l₂ hne hsuf
  cases l₂ with
  | nil => exact absurd rfl hne
  | cons c t => exact h c (t ++ r) (suffix_head_mem hsuf rfl)

theorem tagSplit_none_of_head {c : Char} (h : c ≠ '<') (t : List Char) :
    tagSplit (c :: t) = none := by
  simp [tagSplit, h]

theorem tsSplit_none_of_head {c : Char} (h : isDig c = false) (t : List Char) :
    tsSplit (c :: t) = none := by
  show matchPre tsPat (c :: t) = none
  rw [show tsPat = CC.dig :: tsPat.tail from by decide]
  simp [matchPre, ccMatch, h]

theorem alignSplit_none_of_head {c : Char} (h : c ≠ 'a') (t : List Char) :
    alignSplit (c :: t) = none := by
  have hsw : swL alignLit (c :: t) = false := by
    rw [show alignLit = 'a' :: "lign:start position:".data from by decide]
    simp only [swL, Bool.and_eq_false_iff]
    left
    simp only [decide_eq_false_iff_not]
    exact fun he => h he.symm
  simp [alignSplit, hsw]

theorem suffix_append_cases : ∀ (A : List Char) {l₂ B : List Char}, l₂ <:+ A ++ B →
    l₂ <:+ B ∨ ∃ a₂, a₂ <:+ A ∧ a₂ ≠ [] ∧ l₂ = a₂ ++ B := by
  intro A
  induction A with
  | nil =>
    intro l₂ B h
    exact Or.inl (by simpa using h)
  | cons x A2 ih =>
    intro l₂ B h
    rw [List.cons_append] at h
    rcases List.suffix_cons_iff.mp h with h | h
    · right
      exact ⟨x :: A2, List.suffix_refl _, by simp, by simpa using h⟩
    · rcases ih h with h | ⟨a₂, hs, hn, he⟩
      · exact Or.inl h
      · exact Or.inr ⟨a₂, hs.trans (List.suffix_cons x A2), hn, he⟩

theorem nlNorm_append_noLB : ∀ {a : List Char} (b : List Char),
    (∀ c ∈ a, isLB c = false) → nlNorm (a ++ b) = a ++ nlNorm b := by
  intro a
  induction a with
  | nil => intro b _; rfl
  | cons c a2 ih =>
    intro b h
    have hc : isLB c = false := h c (List.mem_cons_self _ _)
    have hcr : c ≠ '\r' := by
      intro he
      rw [he] at hc
      exact absurd hc (by decide)
    rw [List.cons_append, nlNorm.eq_3 c (a2 ++ b) (fun r1 h1 _ => hcr h1)]
    rw [if_neg (by simp [hc])]
    rw [ih b (fun d hd => h d (List.mem_cons_of_mem c hd))]
    rfl

theorem nlNormInner_ne_nil : ∀ {x : List Char}, x ≠ [] → nlNormInner x ≠ [] := by
  intro x
  induction x using nlNormInner.induct with
  | case1 => exact fun h => absurd rfl h
  | case2 t ih =>
    intro _
    simp [nlNormInner]
  | case3 c t hne ih =>
    intro _
    rw [nlNormInner.eq_3 c t (fun t1 h1 h2 => hne t1 h1 h2)]
    simp

theorem nlNormInner_mem : ∀ {x : List Char} {c : Char},
    c ∈ nlNormInner x → c = '\n' ∨ c ∈ x := by
  intro x
  induction x using nlNormInner.induct with
  | case1 => intro c h; simp [nlNormInner] at h
  | case2 t ih =>
    intro c h
    rw [show nlNormInner ('\r' :: '\n' :: t) = '\n' :: nlNormInner t from rfl] at h
    rcases List.mem_cons.mp h with h | h
    · exact Or.inl h
    · rcases ih h with h | h
      · exact Or.inl h
      · exact Or.inr (List.mem_cons_of_mem _ (List.mem_cons_of_mem _ h))
  | case3 c0 t hne ih =>
    intro c h
    rw [nlNormInner.eq_3 c0 t (fun t1 h1 h2 => hne t1 h1 h2)] at h
    rcases List.mem_cons.mp h with h | h
    · by_cases hlb : isLB c0 = true
      · rw [if_pos hlb] at h
        exact Or.inl h
      · rw [if_neg hlb] at h
        exact Or.inr (h ▸ List.mem_cons_self c0 t)
    · rcases ih h with h | h
      · exact Or.inl h
      · exact Or.inr (List.mem_cons_of_mem _ h)

theorem nlNorm_append_inner : ∀ (a b : List Char), b ≠ [] → b.head? ≠ some '\n' →
    nlNorm (a ++ b) = nlNormInner a ++ nlNorm b := by
  intro a
  induction a using nlNormInner.induct with
  | case1 => intro b _ _; rfl
  | case2 t ih =>
    intro b hb hbh
    have htb : t ++ b ≠ [] := by simp [hb]
    rw [List.cons_append, List.cons_append, nlNorm.eq_2]
    rw [if_neg (by simpa [isEmpty_true_iff] using htb)]
    rw [ih b hb hbh]
    rfl
  | case3 c t hne ih =>
    intro b hb hbh
    have hcond : ∀ r1, c = '\r' → t ++ b = '\n' :: r1 → False := by
      intro r1 h1 h2
      cases t with
      | nil =>
        simp only [List.nil_append] at h2
        rw [h2] at hbh
        exact hbh rfl
      | cons e t2 =>
        rw [List.cons_append] at h2
        have he : e = '\n' := (List.cons.injEq _ _ _ _).mp h2 |>.1
        exact hne t2 h1 (by rw [he])
    have htb : t ++ b ≠ [] := by simp [hb]
    rw [List.cons_append, nlNorm.eq_3 c (t ++ b) hcond]
    rw [nlNormInner.eq_3 c t (fun t1 h1 h2 => hne t1 h1 h2)]
    by_cases hlb : isLB c = true
    · rw [if_pos hlb, if_pos hlb]
      rw [if_neg (by simpa [isEmpty_true_iff] using htb)]
      rw [ih b hb hbh]
      rfl
    · rw [if_neg hlb, if_neg hlb]
      rw [ih b hb hbh]
      rfl

theorem interleaved_nlNorm {s : List Char} (hs : Interleaved s) :
    Interleaved (nlNorm s) := by
  induction hs with
  | nil => exact .nil
  | ws hws hint ih =>
    rename_i c r
    by_cases hpair : c = '\r' ∧ ∃ r2, r = '\n' :: r2
    · rcases hpair with ⟨hc, r2, hr⟩
      subst hc
      subst hr
      have heq : nlNorm ('\r' :: '\n' :: r2) = nlNorm ('\n' :: r2) := by
        rw [nlNorm.eq_2, nlNorm.eq_3 '\n' r2 (fun r1 h1 _ => absurd h1 (by decide))]
        rw [if_pos (by decide : isLB '\n' = true)]
      rw [heq]
      exact ih
    · have hcond : ∀ r1, c = '\r' → r = '\n' :: r1 → False := by
        intro r1 h1 h2
        exact hpair ⟨h1, r1, h2⟩
      rw [nlNorm.eq_3 c r hcond]
      by_cases hlb : isLB c = true
      · rw [if_pos hlb]
        by_cases hre : r.isEmpty = true
        · rw [if_pos hre]
          exact .nil
        · rw [if_neg hre]
          exact .ws (by decide) ih
      · rw [if_neg hlb]
        exact .ws hws ih
  | tag hxne hxgt hint ih =>
    rename_i x r
    have hshape : '<' :: x ++ '>' :: r = ('<' :: x) ++ ('>' :: r) := by simp
    rw [hshape]
    rw [nlNorm_append_inner ('<' :: x) ('>' :: r) (by simp) (by simp)]
    have h2 : nlNormInner ('<' :: x) = '<' :: nlNormInner x := by
      rw [nlNormInner.eq_3 '<' x (fun t1 hc _ => absurd hc (by decide))]
      rw [if_neg (by decide : ¬isLB '<' = true)]
    have h3 : nlNorm ('>' :: r) = '>' :: nlNorm r := by
      rw [nlNorm.eq_3 '>' r (fun r1 hc _ => absurd hc (by decide))]
      rw [if_neg (by decide : ¬isLB '>' = true)]
    rw [h2, h3]
    rw [show ('<' :: nlNormInner x) ++ '>' :: nlNorm r
        = '<' :: nlNormInner x ++ '>' :: nlNorm r from by simp]
    refine .tag (nlNormInner_ne_nil hxne) ?_ ih
    intro c hc
    rcases nlNormInner_mem hc with h | h
    · rw [h]
      decide
    · exact hxgt c h
  | ts hmatch hint ih =>
    rename_i w r
    rw [nlNorm_append_noLB r (ts_render_noLB hmatch)]
    exact .ts hmatch ih
  | align hdne hdig hint ih =>
    rename_i d r
    have hnoLB : ∀ c ∈ alignLit ++ d, isLB c = false := by
      intro c hc
      rcases List.mem_append.mp hc with hc | hc
      · have hall : ∀ x ∈ alignLit, isLB x = false := by decide
        exact hall c hc
      · exact dig_not_lb (hdig c hc)
    have hshape : alignLit ++ d ++ '%' :: r = (alignLit ++ d) ++ ('%' :: r) := by simp
    rw [hshape, nlNorm_append_noLB ('%' :: r) hnoLB]
    have h3 : nlNorm ('%' :: r) = '%' :: nlNorm r := by
      rw [nlNorm.eq_3 '%' r (fun r1 hc _ => absurd hc (by decide))]
      rw [if_neg (by decide : ¬isLB '%' = true)]
    rw [h3]
    rw [show (alignLit ++ d) ++ '%' :: nlNorm r = alignLit ++ d ++ '%' :: nlNorm r from by simp]
    exact .align hdne hdig ih

theorem tagSplit_render {x : List Char} (r : List Char) (hxne : x ≠ [])
    (hxgt : ∀ c ∈ x, c ≠ '>') : tagSplit ('<' :: x ++ '>' :: r) = some r := by
  have h1 : (x ++ '>' :: r).takeWhile (fun d => d ≠ '>') = x := by
    refine takeWhile_all_append ?_ (by simp) r
    intro c hc
    simpa using hxgt c hc
  show tagSplit ('<' :: (x ++ '>' :: r)) = some r
  rw [show tagSplit ('<' :: (x ++ '>' :: r))
      = (if ((x ++ '>' :: r).takeWhile (fun d => d ≠ '>')).isEmpty = true then none
         else if ((x ++ '>' :: r).drop
             ((x ++ '>' :: r).takeWhile (fun d => d ≠ '>')).length).head? = some '>' then
           some ((x ++ '>' :: r).drop
             ((x ++ '>' :: r).takeWhile (fun d => d ≠ '>')).length).tail
         else none) from by simp [tagSplit]]
  rw [h1, drop_append_len x ('>' :: r)]
  rw [if_neg (by simp only [isEmpty_true_iff]; exact hxne)]
  simp

theorem rmTag_interleaved {s : List Char} (hs : Interleaved s) : Interleaved2 (rmTag s) := by
  induction hs with
  | nil => exact .nil
  | ws hws hint ih =>
    rename_i c r
    have hne : c ≠ '<' := fn_ne hws (by decide : isWS '<' = false)
    rw [show rmTag (c :: r) = c :: rmTag r
      from scanDel_cons_none (tagSplit_none_of_head hne r)]
    exact .ws hws ih
  | tag hxne hxgt hint ih =>
    rename_i x r
    rw [show rmTag ('<' :: x ++ '>' :: r) = rmTag r
      from scanDel_consume tagSplit_shrink (tagSplit_render r hxne hxgt)]
    exact ih
  | ts hmatch hint ih =>
    rename_i w r
    have hnolt : ∀ c ∈ w, c ≠ '<' := by
      intro c hc he
      subst he
      have hall : tsPat.all (fun p => ccExcludes p '<') = true := by decide
      exact (ts_render_ne hmatch hall) hc
    rw [show rmTag (w ++ r) = w ++ rmTag r
      from scanDel_skip_of_heads w r (fun c t hc => tagSplit_none_of_head (hnolt c hc) t)]
    exact .ts hmatch ih
  | align hdne hdig hint ih =>
    rename_i d r
    have hnolt : ∀ c ∈ alignLit ++ d ++ ['%'], c ≠ '<' := by
      intro c hc
      rcases List.mem_append.mp hc with hc | hc
      · rcases List.mem_append.mp hc with hc | hc
        · exact (by decide : ∀ x ∈ alignLit, x ≠ '<') c hc
        · exact fn_ne (hdig c hc) (by decide : isDig '<' = false)
      · have : c = '%' := by simpa using hc
        subst this
        decide
    have hshape : alignLit ++ d ++ '%' :: r = (alignLit ++ d ++ ['%']) ++ r := by simp
    rw [hshape]
    rw [show rmTag ((alignLit ++ d ++ ['%']) ++ r) = (alignLit ++ d ++ ['%']) ++ rmTag r
      from scanDel_skip_of_heads _ r (fun c t hc => tagSplit_none_of_head (hnolt c hc) t)]
    rw [show (alignLit ++ d ++ ['%']) ++ rmTag r = alignLit ++ d ++ '%' :: rmTag r from by simp]
    exact .align hdne hdig ih

theorem tsSplit_digits_percent : ∀ {d2 : List Char}, d2 ≠ [] →
    (∀ c ∈ d2, isDig c = true) → ∀ t : List Char, tsSplit (d2 ++ '%' :: t) = none := by
  intro d2 hne hdig t
  match d2 with
  | [] => exact absurd rfl hne
  | [a] =>
    have ha : isDig a = true := hdig a (by simp)
    show matchPre tsPat (a :: '%' :: t) = none
    rw [show tsPat = CC.dig :: CC.dig :: (tsPat.tail.tail) from by decide]
    simp [matchPre, ccMatch, ha, show isDig '%' = false from by decide]
  | [a, b] =>
    have ha : isDig a = true := hdig a (by simp)
    have hb : isDig b = true := hdig b (by simp)
    show matchPre tsPat (a :: b :: '%' :: t) = none
    rw [show tsPat = CC.dig :: CC.dig :: CC.lit ':' :: (tsPat.tail.tail.tail) from by decide]
    simp [matchPre, ccMatch, ha, hb, show ('%' = ':') = False from by simp]
  | a :: b :: c3 :: rest2 =>
    have ha : isDig a = true := hdig a (by simp)
    have hb : isDig b = true := hdig b (by simp)
    have hc3 : isDig c3 = true := hdig c3 (by simp)
    have hc3ne : c3 ≠ ':' := fn_ne hc3 (by decide : isDig ':' = false)
    show matchPre tsPat (a :: b :: c3 :: (rest2 ++ '%' :: t)) = none
    rw [show tsPat = CC.dig :: CC.dig :: CC.lit ':' :: (tsPat.tail.tail.tail) from by decide]
    simp [matchPre, ccMatch, ha, hb, hc3ne]

theorem rmTs_interleaved2 {s : List Char} (hs : Interleaved2 s) : Interleaved3 (rmTs s) := by
  induction hs with
  | nil => exact .nil
  | ws hws hint ih =>
    rename_i c r
    rw [show rmTs (c :: r) = c :: rmTs r
      from scanDel_cons_none (tsSplit_none_of_head (ws_not_dig hws) r)]
    exact .ws hws ih
  | ts hmatch hint ih =>
    rename_i w r
    rw [show rmTs (w ++ r) = rmTs r
      from scanDel_consume tsSplit_shrink (matchPre_extend tsPat w r hmatch)]
    exact ih
  | align hdne hdig hint ih =>
    rename_i d r
    have hnone : ∀ l₂, l₂ ≠ [] → l₂ <:+ (alignLit ++ (d ++ ['%'])) → tsSplit (l₂ ++ r) = none := by
      intro l₂ hne2 hsuf
      rcases suffix_append_cases alignLit hsuf with hsuf | ⟨a₂, ha₂, hane, he⟩
      · rcases suffix_append_cases d hsuf with hsuf | ⟨d₂, hd₂, hdne2, he⟩
        · rcases List.suffix_cons_iff.mp hsuf with he | he
          · rw [he]
            exact tsSplit_none_of_head (by decide : isDig '%' = false) _
          · have : l₂ = [] := by simpa using he
            exact absurd this hne2
        · rw [he, List.append_assoc]
          exact tsSplit_digits_percent hdne2 (fun c hc => hdig c (hd₂.subset hc)) _
      · cases a₂ with
        | nil => exact absurd rfl hane
        | cons c t =>
          have hcm : c ∈ alignLit := ha₂.subset (List.mem_cons_self c t)
          have hcd : isDig c = false := (by decide : ∀ x ∈ alignLit, isDig x = false) c hcm
          rw [he]
          rw [show ((c :: t) ++ (d ++ ['%'])) ++ r = c :: (t ++ (d ++ ['%']) ++ r) from by simp]
          exact tsSplit_none_of_head hcd _
    rw [show alignLit ++ d ++ '%' :: r = (alignLit ++ (d ++ ['%'])) ++ r from by simp]
    rw [show rmTs ((alignLit ++ (d ++ ['%'])) ++ r)
        = (alignLit ++ (d ++ ['%'])) ++ rmTs r from scanDel_skip _ r hnone]
    rw [show (alignLit ++ (d ++ ['%'])) ++ rmTs r = alignLit ++ d ++ '%' :: rmTs r from by simp]
    exact .align hdne hdig ih

theorem rmAlign_interleaved3 {s : List Char} (hs : Interleaved3 s) :
    ∀ c ∈ rmAlign s, isWS c = true := by
  induction hs with
  | nil =>
    intro c hc
    rw [show rmAlign [] = [] from rfl] at hc
    exact absurd hc (List.not_mem_nil c)
  | ws hws hint ih =>
    rename_i c0 r
    have hna : c0 ≠ 'a' := fn_ne hws (by decide : isWS 'a' = false)
    rw [show rmAlign (c0 :: r) = c0 :: rmAlign r
      from scanDel_cons_none (alignSplit_none_of_head hna r)]
    intro c hc
    rcases List.mem_cons.mp hc with hc | hc
    · rw [hc]
      exact hws
    · exact ih c hc
  | align hdne hdig hint ih =>
    rename_i d r
    have hd_pct : ∀ c ∈ d, c ≠ '%' := fun c hc => fn_ne (hdig c hc) (by decide : isDig '%' = false)
    rw [show rmAlign (alignLit ++ d ++ '%' :: r) = rmAlign r from by
      rw [show alignLit ++ d ++ '%' :: r = alignLit ++ (d ++ '%' :: r) from by simp]
      exact scanDel_consume alignSplit_shrink (alignSplit_render r hdne hd_pct)]
    exact ih

theorem cgo_true_allws {s : List Char} (h : ∀ c ∈ s, isWS c = true) : cgo true s = [] := by
  induction s with
  | nil => rfl
  | cons c r ih =>
    rw [cgo_cons, if_pos (h c (List.mem_cons_self c r)), if_pos rfl]
    exact ih (fun d hd => h d (List.mem_cons_of_mem c hd))

theorem stripCollapse_allws {s : List Char} (h : ∀ c ∈ s, isWS c = true) :
    pyStrip (collapseWS s) = [] := by
  cases s with
  | nil => rfl
  | cons c r =>
    unfold collapseWS
    rw [cgo_cons, if_pos (h c (List.mem_cons_self c r)), if_neg (by simp : ¬false = true)]
    rw [cgo_true_allws (fun d hd => h d (List.mem_cons_of_mem c hd))]
    decide

theorem slAux_first : ∀ cur s : List Char, ∃ u ls, slAux cur s = (cur.reverse ++ u) :: ls := by
  intro cur s
  induction cur, s using slAux.induct with
  | case1 cur => exact ⟨[], [], by simp [slAux]⟩
  | case2 cur r ih =>
    refine ⟨[], if r.isEmpty then [] else slAux [] r, ?_⟩
    rw [slAux]
    simp
  | case3 cur c r hne hlb ih =>
    refine ⟨[], if r.isEmpty then [] else slAux [] r, ?_⟩
    rw [slAux.eq_3 cur c r (fun r1 h1 h2 => hne r1 h1 h2), if_pos hlb]
    simp
  | case4 cur c r hne hlb ih =>
    rcases ih with ⟨u, ls, he⟩
    refine ⟨c :: u, ls, ?_⟩
    rw [slAux.eq_3 cur c r (fun r1 h1 h2 => hne r1 h1 h2), if_neg hlb, he]
    simp

theorem swL_false_of_head {p c : Char} {pr s : List Char} (h : c ≠ p) :
    swL (p :: pr) (c :: s) = false := by
  simp only [swL, Bool.and_eq_false_iff]
  left
  simp only [decide_eq_false_iff_not]
  exact fun he => h he.symm

theorem headerFreeB_of_head {s : List Char}
    (h : ∀ c, s.head? = some c → (c ≠ 'W' ∧ c ≠ 'K' ∧ c ≠ 'L')) : headerFreeB s = true := by
  cases s with
  | nil => rfl
  | cons c r =>
    obtain ⟨hW, hK, hL⟩ := h c rfl
    unfold headerFreeB
    rw [show pySplitlines (c :: r) = slAux [] (c :: r) from by simp [pySplitlines]]
    have hcase : (∃ ls, slAux [] (c :: r) = [] :: ls)
        ∨ (∃ u ls, slAux [] (c :: r) = (c :: u) :: ls) := by
      by_cases hpair : c = '\r' ∧ ∃ r2, r = '\n' :: r2
      · rcases hpair with ⟨hc, r2, hr⟩
        subst hc
        subst hr
        refine Or.inl ⟨if r2.isEmpty = true then [] else slAux [] r2, ?_⟩
        rw [slAux]
        rfl
      · have hcond : ∀ r1, c = '\r' → r = '\n' :: r1 → False := fun r1 h1 h2 => hpair ⟨h1, r1, h2⟩
        by_cases hlb : isLB c = true
        · refine Or.inl ⟨if r.isEmpty = true then [] else slAux [] r, ?_⟩
          rw [slAux.eq_3 [] c r hcond, if_pos hlb]
          rfl
        · rcases slAux_first [c] r with ⟨u, ls, he⟩
          refine Or.inr ⟨u, ls, ?_⟩
          rw [slAux.eq_3 [] c r hcond, if_neg hlb, he]
          simp
    rcases hcase with ⟨ls, he⟩ | ⟨u, ls, he⟩
    · rw [he]
      show (!(swL "WEBVTT".data [] || swL "Kind:".data [] || swL "Language:".data [])) = true
      decide
    · rw [he]
      have e1 : swL "WEBVTT".data (c :: u) = false := by
        rw [show "WEBVTT".data = 'W' :: "EBVTT".data from by decide]
        exact swL_false_of_head hW
      have e2 : swL "Kind:".data (c :: u) = false := by
        rw [show "Kind:".data = 'K' :: "ind:".data from by decide]
        exact swL_false_of_head hK
      have e3 : swL "Language:".data (c :: u) = false := by
        rw [show "Language:".data = 'L' :: "anguage:".data from by decide]
        exact swL_false_of_head hL
      simp [e1, e2, e3]

theorem interleaved_head {s : List Char} (hs : Interleaved s) :
    ∀ c, s.head? = some c → (c ≠ 'W' ∧ c ≠ 'K' ∧ c ≠ 'L') := by
  cases hs with
  | nil => intro c h; simp at h
  | ws hws hint =>
    rename_i c0 r0
    intro c h
    have he : c0 = c := by simpa using h
    subst he
    have hm := ws_to_mem hws
    exact (by decide : ∀ x ∈ wsList, x ≠ 'W' ∧ x ≠ 'K' ∧ x ≠ 'L') _ hm
  | tag hxne hxgt hint =>
    intro c h
    have he : '<' = c := by simpa using h
    subst he
    exact ⟨by decide, by decide, by decide⟩
  | ts hmatch hint =>
    intro c h
    rcases ts_render_head hmatch with ⟨a, w2, hw, ha⟩
    subst hw
    have he : a = c := by simpa using h
    subst he
    exact ⟨fn_ne ha (by decide : isDig 'W' = false),
      fn_ne ha (by decide : isDig 'K' = false),
      fn_ne ha (by decide : isDig 'L' = false)⟩
  | align hdne hdig hint =>
    intro c h
    have he : 'a' = c := by
      rw [show alignLit = 'a' :: "lign:start position:".data from by decide] at h
      simpa using h
    subst he
    exact ⟨by decide, by decide, by decide⟩

/-! ## Claim C4 — markup exhaustiveness -/

theorem cleanList_interleaved_nil {s : List Char} (hs : Interleaved s) : cleanList s = [] := by
  unfold cleanList
  rw [dropHeader_id_of_headerFree (headerFreeB_of_head (interleaved_head hs)), join_splitlines]
  exact stripCollapse_allws (rmAlign_interleaved3 (rmTs_interleaved2 (rmTag_interleaved
    (interleaved_nlNorm hs))))

/-- C4: for every string made of angle-bracket tags, cue-timing ranges,
positioning artifacts and arbitrary interleaved whitespace, the cleaner
output contains no tag, cue-timing or positioning match, no run of two or
more consecutive whitespace characters, and no leading or trailing
whitespace (indeed it is empty, everything being removable). -/
theorem c4_markup_exhaustive (s : List Char) (hs : Interleaved s) :
    noMatchB tagSplit (cleanList s) = true
    ∧ noMatchB tsSplit (cleanList s) = true
    ∧ noMatchB alignSplit (cleanList s) = true
    ∧ noAdjWs (cleanList s) = true
    ∧ headNotWs (cleanList s) = true
    ∧ lastNotWs (cleanList s) = true := by
  rw [cleanList_interleaved_nil hs]
  exact ⟨by decide, by decide, by decide, rfl, rfl, rfl⟩

theorem c4_markup_exhaustive_witness :
    noMatchB tagSplit (cleanList c4ex) = true
    ∧ noMatchB tsSplit (cleanList c4ex) = true
    ∧ noMatchB alignSplit (cleanList c4ex) = true
    ∧ noAdjWs (cleanList c4ex) = true
    ∧ headNotWs (cleanList c4ex) = true
    ∧ lastNotWs (cleanList c4ex) = true := by
  have hd : Interleaved c4ex := by
    show Interleaved ('<' :: "c".data ++ '>' :: ' ' ::
      ("00:00:01.000 --> 00:00:02.000".data ++ ' ' ::
        (alignLit ++ "12".data ++ '%' :: [' '])))
    refine .tag (by decide) (by decide) ?_
    refine .ws (by decide) ?_
    refine .ts (by decide) ?_
    refine .ws (by decide) ?_
    refine .align (by decide) (by decide) ?_
    exact .ws (by decide) .nil
  exact c4_markup_exhaustive c4ex hd
